import Mathlib

/-!
Verification of the glue logic of `doc_classification.py`, a script that
inventories a directory of scanned documents, lemmatizes OCRd text, builds a
bag-of-words corpus with gensim, fits an LDA model, and reports similar
documents via TF-IDF cosine similarity.

Documents, paths and tokens are modelled as `List Char`; the file system,
the spaCy pipeline `nlp` and image display are passed in as explicit
parameters since they are ambient state in the script.  Python 2 integer
division is `Nat` division; a Python exception is `Option`/`Except` failure.
-/

/-- `string.punctuation` from the Python standard library: the 32 ASCII
punctuation characters, given by code point. -/
def pyPunct : List Char :=
  [33, 34, 35, 36, 37, 38, 39, 40, 41, 42, 43, 44, 45, 46, 47, 58, 59, 60,
   61, 62, 63, 64, 91, 92, 93, 94, 95, 96, 123, 124, 125, 126].map Char.ofNat

/-- The six whitespace characters that Python 2 `str.split()` splits on:
space, tab, newline, carriage return, vertical tab, form feed. -/
def pyWs : List Char :=
  [32, 9, 10, 13, 11, 12].map Char.ofNat

/-- Python `str.split()` with no separator: split at whitespace characters
and drop the empty runs. -/
def words (l : List Char) : List (List Char) :=
  (l.splitOnP fun c => decide (c ∈ pyWs)).filter fun w => !w.isEmpty

/-- Python `' '.join(ws)`: the tokens joined by single spaces. -/
def joinSp : List (List Char) → List Char
  | [] => []
  | [w] => w
  | w :: v :: ws => w ++ ' ' :: joinSp (v :: ws)

/-- The token stream the script derives from a raw document before
stop-word filtering (`doc_classification.py` lines 105–111): punctuation
characters are deleted (`doc.translate(None, punctuation)`), newlines become
spaces, whitespace is collapsed (`' '.join(....split())`), the result is fed
to the spaCy pipeline `nlp`, and each returned lemma is lowercased.
`nlp` is the external pipeline, a parameter of the model: it maps the
cleaned document to the list of `token.lemma_` strings. -/
def lemTokens (nlp : List Char → List (List Char)) (doc : List Char) :
    List (List Char) :=
  (nlp (joinSp (words ((doc.filter fun c => decide (c ∉ pyPunct)).map
    fun c => if c = '\n' then ' ' else c)))).map (List.map Char.toLower)

/-- `lemmatize_string(doc, stop_words)` (lines 96–113): lowercased lemmas of
the punctuation-stripped document, with stop words removed, joined by
spaces. -/
def lemmatize_string (nlp : List Char → List (List Char))
    (stop_words : List (List Char)) (doc : List Char) : List Char :=
  joinSp ((lemTokens nlp doc).filter fun w => decide (w ∉ stop_words))

/-- `lemmatize_corpus(txt_paths)` (lines 116–129): read each file and
lemmatize it.  `fs` models the file system, mapping a path to the file's
contents; `stop_words` is the gensim `STOPWORDS` constant, kept as a
parameter. -/
def lemmatize_corpus (nlp : List Char → List (List Char))
    (stop_words : List (List Char)) (fs : List Char → List Char)
    (txt_paths : List (List Char)) : List (List Char) :=
  (txt_paths.map fs).map (lemmatize_string nlp stop_words)

/-- Python 2 `xrange(0, stop, step)` for a positive step: the multiples of
`step` below `stop`. -/
def pyRangeStep (stop step : Nat) : List Nat :=
  (List.range ((stop + step - 1) / step)).map (· * step)

/-- `parallel_corpus_lemmatization(txt_paths)` (lines 132–146): chunk the
path list into slices `txt_paths[i:i+n]` of size `n = len(txt_paths)/cores`
(Python 2 floor division), map `lemmatize_corpus` over the chunks with a
pool (pool order preserved), and concatenate.  When `n = 0` the slicing
loop `xrange(0, len, 0)` raises `ValueError`, modelled as `none`; `cores`
models `mp.cpu_count()`. -/
def parallel_corpus_lemmatization (nlp : List Char → List (List Char))
    (stop_words : List (List Char)) (fs : List Char → List Char)
    (cores : Nat) (txt_paths : List (List Char)) :
    Option (List (List Char)) :=
  let n := txt_paths.length / cores
  if n = 0 then none
  else
    some (((pyRangeStep txt_paths.length n).map
      fun i => (txt_paths.drop i).take n).map
        (lemmatize_corpus nlp stop_words fs)).flatten

/-- The running state of `doc_cnts_paths` (lines 32–53): four counters and
four path lists, one per file-extension bucket. -/
structure Inventory where
  tif_cnt : Nat
  xml_cnt : Nat
  txt_cnt : Nat
  misc_cnt : Nat
  tif_paths : List (List Char)
  xml_paths : List (List Char)
  txt_paths : List (List Char)
  misc_paths : List (List Char)
deriving Repr, DecidableEq

/-- `os.path.join(dirpath, file)` for the POSIX paths the script uses. -/
def pathJoin (dirpath file : List Char) : List Char :=
  dirpath ++ '/' :: file

/-- One iteration of the inner loop of `doc_cnts_paths`: classify `file` by
suffix and bump the matching counter and path list. -/
def classify_file (dirpath : List Char) (inv : Inventory) (file : List Char) :
    Inventory :=
  if ['.', 't', 'i', 'f'].isSuffixOf file then
    { inv with tif_cnt := inv.tif_cnt + 1,
               tif_paths := inv.tif_paths ++ [pathJoin dirpath file] }
  else if ['.', 'x', 'm', 'l'].isSuffixOf file then
    { inv with xml_cnt := inv.xml_cnt + 1,
               xml_paths := inv.xml_paths ++ [pathJoin dirpath file] }
  else if ['.', 't', 'x', 't'].isSuffixOf file then
    { inv with txt_cnt := inv.txt_cnt + 1,
               txt_paths := inv.txt_paths ++ [pathJoin dirpath file] }
  else
    { inv with misc_cnt := inv.misc_cnt + 1,
               misc_paths := inv.misc_paths ++ [pathJoin dirpath file] }

/-- `doc_cnts_paths(data_path)` (lines 32–53).  The `os.walk` traversal is
modelled by its output: a list of `(dirpath, filenames)` entries. -/
def doc_cnts_paths (walk : List (List Char × List (List Char))) : Inventory :=
  walk.foldl (fun inv e => e.2.foldl (classify_file e.1) inv)
    ⟨0, 0, 0, 0, [], [], [], []⟩

/-- Incremental construction of a gensim `corpora.Dictionary`: token ids are
positions in a duplicate-free token list, new tokens appended on first
appearance. -/
def addUnique (acc : List (List Char)) (tok : List Char) : List (List Char) :=
  if tok ∈ acc then acc else acc ++ [tok]

/-- The token list of `corpora.Dictionary(doc_tokens)`: all distinct tokens
of the corpus, ids given by position. -/
def buildDict (doc_tokens : List (List (List Char))) : List (List Char) :=
  doc_tokens.foldl (fun acc doc => doc.foldl addUnique acc) []

/-- `dictionary.dfs` for a token: the number of documents containing it. -/
def docFreq (doc_tokens : List (List (List Char))) (tok : List Char) : Nat :=
  (doc_tokens.filter fun doc => decide (tok ∈ doc)).length

/-- gensim `Dictionary.filter_extremes(no_below, no_above)`: keep the tokens
contained in at least `no_below` documents and in at most
`int(no_above * num_docs)` documents (Python `int()` truncation, which is
the floor for the non-negative fractions used here); remaining ids are
compacted preserving their relative order.  The bound is written as the
integer division `(no_above.num * num_docs) / no_above.den`, which equals
`⌊no_above * num_docs⌋` (theorem `num_mul_div_den_eq_floor` below).  The
`keep_n` cap of the library (default 100000) never binds in this script's
corpora and is not modelled. -/
def filter_extremes (no_below : Nat) (no_above : ℚ)
    (doc_tokens : List (List (List Char))) (dict : List (List Char)) :
    List (List Char) :=
  dict.filter fun tok =>
    decide (no_below ≤ docFreq doc_tokens tok) &&
      decide ((docFreq doc_tokens tok : ℤ) ≤
        no_above.num * doc_tokens.length / (no_above.den : ℤ))

/-- gensim `dictionary.doc2bow(text)`: the `(token id, count)` pairs, in
ascending id order, for the tokens of `text` present in the dictionary. -/
def doc2bow (dict : List (List Char)) (text : List (List Char)) :
    List (Nat × Nat) :=
  (List.range dict.length).filterMap fun i =>
    let c := text.count (dict.getD i [])
    if c = 0 then none else some (i, c)

/-- `bow_and_dict(lemmatized_corpus, no_below, no_above=0.5)` (lines
149–163).  Note the source calls `dictionary.filter_extremes(no_below=no_below)`
without forwarding its own `no_above` argument, so the library default
`no_above = 0.5` is what is applied; the `no_above` parameter is dead. -/
def bow_and_dict (lemmatized_corpus : List (List Char)) (no_below : Nat)
    (no_above : ℚ) : List (List Char) × List (List (Nat × Nat)) :=
  let doc_tokens := lemmatized_corpus.map words
  let dictionary := buildDict doc_tokens
  let dictionary := filter_extremes no_below (mkRat 1 2) doc_tokens dictionary
  (dictionary, doc_tokens.map (doc2bow dictionary))

/-- Modelled from the spec: "Builds global dictionary, filters tokens
outside [no_below, no_above*corpus_size]" — the variant of `bow_and_dict`
that actually applies the `no_above` argument it receives, as the spec and
the function's own docstring describe. -/
def bow_and_dict_spec (lemmatized_corpus : List (List Char)) (no_below : Nat)
    (no_above : ℚ) : List (List Char) × List (List (Nat × Nat)) :=
  let doc_tokens := lemmatized_corpus.map words
  let dictionary := buildDict doc_tokens
  let dictionary := filter_extremes no_below no_above doc_tokens dictionary
  (dictionary, doc_tokens.map (doc2bow dictionary))

/-- A trained gensim LDA model, as `inspect_classification` uses it:
`num_topics` and the per-document topic distribution `model[doc]`, a list of
`(topic, probability)` pairs.  Probabilities are floats in the source, used
only through order comparisons; they are modelled as rationals. -/
structure LdaModel where
  num_topics : Nat
  infer : List (Nat × Nat) → List (Nat × ℚ)

/-- `sorted(model[doc], key=lambda x: x[1], reverse=True)[0][0]`: the topic
of the pair with the greatest probability, the earliest pair on ties
(Python's sort is stable and `reverse=True` keeps tie order).  On an empty
distribution the source raises `IndexError`; the model returns topic 0,
which no claim exercises. -/
def topTopicOf (pairs : List (Nat × ℚ)) : Nat :=
  match pairs with
  | [] => 0
  | p :: rest => (rest.foldl (fun best x => if best.2 < x.2 then x else best) p).1

/-- The `top_topics_lst` defaultdict of `inspect_classification` at key `t`:
the positions of the documents whose top topic is `t`, in corpus order. -/
def top_topics_lst (bow_corpus : List (List (Nat × Nat))) (model : LdaModel)
    (t : Nat) : List Nat :=
  (List.range bow_corpus.length).filter fun i =>
    decide (topTopicOf (model.infer (bow_corpus.getD i [])) = t)

/-- `path[:-3] + 'tif'`: drop the last three characters and append `tif`. -/
def tifOf3 (p : List Char) : List Char :=
  p.take (p.length - 3) ++ ['t', 'i', 'f']

/-- One topic's `inspection_lst`: the `.tif` forms of the text paths of the
documents grouped under topic `t` (the source indexes the module-level
`txt_paths` array, passed here as a parameter). -/
def inspection_for (txt_paths : List (List Char))
    (bow_corpus : List (List (Nat × Nat))) (model : LdaModel) (t : Nat) :
    List (List Char) :=
  (top_topics_lst bow_corpus model t).map fun i => tifOf3 (txt_paths.getD i [])

/-- `inspect_classification(bow_corpus, model, topic)` (lines 166–180).  The
second loop `for topic in range(model.num_topics)` shadows the `topic`
parameter and overwrites `inspection_lst` on every iteration, so the value
returned is the list built for the final topic; with `num_topics = 0` the
loop never runs and the trailing `return inspection_lst` raises `NameError`
(an unbound local), modelled as `none`. -/
def inspect_classification (bow_corpus : List (List (Nat × Nat)))
    (model : LdaModel) (topic : Nat) (txt_paths : List (List Char)) :
    Option (List (List Char)) :=
  (List.range model.num_topics).foldl
    (fun _acc t => some (inspection_for txt_paths bow_corpus model t)) none

/-- Dot product of two rows, `numpy`-style over the zipped entries. -/
def dotR (u v : List ℝ) : ℝ :=
  (List.zipWith (fun a b => a * b) u v).sum

/-- sklearn `cosine_similarity` of two rows: the dot product of the
L2-normalized rows.  Real division by a zero norm yields `0` in Lean,
matching sklearn's convention that an all-zero row has similarity `0`. -/
noncomputable def cosSim (u v : List ℝ) : ℝ :=
  dotR u v / (Real.sqrt (dotR u u) * Real.sqrt (dotR v v))

/-- `np.argsort(sim)`: the indices of `sim` sorted by ascending value.
Ties keep index order — `numpy`'s sort is insertion sort below its
small-array cutoff and is observationally stable there, matched here by a
stable insertion sort on the enumerated list. -/
noncomputable def argsortAsc (xs : List ℝ) : List Nat :=
  (xs.enum.insertionSort fun a b => a.2 ≤ b.2).map Prod.fst

/-- `path[:-4] + '.tif'`: drop the last four characters (the `.txt`
extension) and append `.tif`. -/
def tifOf4 (p : List Char) : List Char :=
  p.take (p.length - 4) ++ ['.', 't', 'i', 'f']

/-- The selection half of `doc_sim` (lines 203–208): locate the query row
(`np.where(txt_arr == path)[0][0]`, the first index equal to `path`),
compute its cosine similarity against every row, take the first five
indices in descending-similarity order (`np.argsort(sim)[::-1][:5]`), and
map them to `.tif` paths. -/
noncomputable def doc_sim_selected (txt_paths : List (List Char))
    (path : List Char) (tfidf_matrix : List (List ℝ)) : List (List Char) :=
  let txt_idx := txt_paths.indexOf path
  let sim := tfidf_matrix.map fun row => cosSim (tfidf_matrix.getD txt_idx []) row
  let desc_idx_5 := (argsortAsc sim).reverse.take 5
  let sim_txt_paths := desc_idx_5.map fun i => txt_paths.getD i []
  sim_txt_paths.map tifOf4

/-- The `try: img = Image.open(path); img.show() except: pass` body of the
display loop: whatever the attempt does, the bare `except` discards the
failure. -/
def tryShow (attempt : Except String Unit) : Except String Unit :=
  match attempt with
  | Except.ok _ => Except.ok ()
  | Except.error _ => Except.ok ()

/-- The display loop of `doc_sim` (lines 209–214), threading the exception
state: a failure would abort the remaining iterations, but each iteration
is wrapped in `tryShow`.  `openShow` models `PIL.Image.open` followed by
`img.show()` on one path, with its possible exception. -/
def displayImgs (openShow : List Char → Except String Unit)
    (paths : List (List Char)) : Except String Unit :=
  paths.foldl
    (fun st p =>
      match st with
      | Except.error e => Except.error e
      | Except.ok _ => tryShow (openShow p)) (Except.ok ())

/-- `doc_sim(txt_paths, path, tfidf_matrix)` (lines 196–214): find the query
row (an absent `path` makes `np.where(...)[0][0]` raise `IndexError`, as
does an out-of-range row index into the matrix), select the five most
similar documents, and attempt to display each; the function returns `None`
(here `ok ()`). -/
noncomputable def doc_sim (openShow : List Char → Except String Unit)
    (txt_paths : List (List Char)) (path : List Char)
    (tfidf_matrix : List (List ℝ)) : Except String Unit :=
  if path ∈ txt_paths then
    if txt_paths.indexOf path < tfidf_matrix.length then
      displayImgs openShow (doc_sim_selected txt_paths path tfidf_matrix)
    else Except.error "IndexError"
  else Except.error "IndexError"

/-- The sum of the four counters of an inventory. -/
def cntTotal (inv : Inventory) : Nat :=
  inv.tif_cnt + inv.xml_cnt + inv.txt_cnt + inv.misc_cnt

/-- Each counter of an inventory equals the length of its path list. -/
def countsAligned (inv : Inventory) : Prop :=
  inv.tif_cnt = inv.tif_paths.length ∧ inv.xml_cnt = inv.xml_paths.length ∧
    inv.txt_cnt = inv.txt_paths.length ∧ inv.misc_cnt = inv.misc_paths.length

instance : IsTotal (Nat × ℝ) fun a b => a.2 ≤ b.2 :=
  ⟨fun a b => le_total a.2 b.2⟩

instance : IsTrans (Nat × ℝ) fun a b => a.2 ≤ b.2 :=
  ⟨fun _ _ _ h1 h2 => le_trans h1 h2⟩

theorem cntTotal_classify_file (d : List Char) (inv : Inventory)
    (f : List Char) : cntTotal (classify_file d inv f) = cntTotal inv + 1 := by
  unfold classify_file
  split_ifs <;> simp only [cntTotal] <;> omega

theorem cntTotal_foldl (d : List Char) (files : List (List Char)) :
    ∀ inv : Inventory,
      cntTotal (files.foldl (classify_file d) inv) =
        cntTotal inv + files.length := by
  induction files with
  | nil => intro inv; simp
  | cons f fs ih =>
    intro inv
    rw [List.foldl_cons, ih, cntTotal_classify_file, List.length_cons]
    omega

theorem cntTotal_walk (walk : List (List Char × List (List Char))) :
    ∀ inv : Inventory,
      cntTotal (walk.foldl (fun inv e => e.2.foldl (classify_file e.1) inv) inv) =
        cntTotal inv + (walk.map fun e => e.2.length).sum := by
  induction walk with
  | nil => intro inv; simp
  | cons e w ih =>
    intro inv
    rw [List.foldl_cons, ih, cntTotal_foldl]
    simp
    omega

/-- C5: for every directory tree, the four counts returned by
`doc_cnts_paths` (`tif_cnt`, `xml_cnt`, `txt_cnt`, `misc_cnt`) sum to the
total number of files encountered in the walk: every file lands in exactly
one of the four buckets. -/
theorem C5_counts_sum_to_total (walk : List (List Char × List (List Char))) :
    (doc_cnts_paths walk).tif_cnt + (doc_cnts_paths walk).xml_cnt +
        (doc_cnts_paths walk).txt_cnt + (doc_cnts_paths walk).misc_cnt =
      (walk.map fun e => e.2.length).sum := by
  have h := cntTotal_walk walk ⟨0, 0, 0, 0, [], [], [], []⟩
  unfold doc_cnts_paths
  simpa [cntTotal] using h

theorem countsAligned_classify_file (d : List Char) (inv : Inventory)
    (f : List Char) (h : countsAligned inv) :
    countsAligned (classify_file d inv f) := by
  unfold classify_file
  obtain ⟨h1, h2, h3, h4⟩ := h
  split_ifs <;> exact ⟨by simp [h1], by simp [h2], by simp [h3], by simp [h4]⟩

theorem countsAligned_foldl (d : List Char) (files : List (List Char)) :
    ∀ inv : Inventory, countsAligned inv →
      countsAligned (files.foldl (classify_file d) inv) := by
  induction files with
  | nil => intro inv h; exact h
  | cons f fs ih =>
    intro inv h
    rw [List.foldl_cons]
    exact ih _ (countsAligned_classify_file d inv f h)

theorem countsAligned_walk (walk : List (List Char × List (List Char))) :
    ∀ inv : Inventory, countsAligned inv →
      countsAligned
        (walk.foldl (fun inv e => e.2.foldl (classify_file e.1) inv) inv) := by
  induction walk with
  | nil => intro inv h; exact h
  | cons e w ih =>
    intro inv h
    rw [List.foldl_cons]
    exact ih _ (countsAligned_foldl e.1 e.2 inv h)

/-- C10: for every directory tree, each of the four counts returned by
`doc_cnts_paths` equals the length of its corresponding returned path list,
an invariant maintained at every step of the walk. -/
theorem C10_counts_match_path_lists
    (walk : List (List Char × List (List Char))) :
    (doc_cnts_paths walk).tif_cnt = (doc_cnts_paths walk).tif_paths.length ∧
      (doc_cnts_paths walk).xml_cnt = (doc_cnts_paths walk).xml_paths.length ∧
      (doc_cnts_paths walk).txt_cnt = (doc_cnts_paths walk).txt_paths.length ∧
      (doc_cnts_paths walk).misc_cnt = (doc_cnts_paths walk).misc_paths.length :=
  countsAligned_walk walk ⟨0, 0, 0, 0, [], [], [], []⟩ ⟨rfl, rfl, rfl, rfl⟩

/-- C9: for every non-empty path list shorter than the core count, the chunk
size `n = len(txt_paths)/cores` is zero, the slicing loop raises, and
`parallel_corpus_lemmatization` fails instead of returning a corpus. -/
theorem C9_short_list_fails (nlp : List Char → List (List Char))
    (stop_words : List (List Char)) (fs : List Char → List Char)
    (cores : Nat) (txt_paths : List (List Char))
    (h1 : 0 < txt_paths.length) (h2 : txt_paths.length < cores) :
    parallel_corpus_lemmatization nlp stop_words fs cores txt_paths = none := by
  unfold parallel_corpus_lemmatization
  simp [Nat.div_eq_of_lt h2]

theorem C9_short_list_fails_witness :
    0 < ([['a']] : List (List Char)).length ∧
      ([['a']] : List (List Char)).length < 4 ∧
      parallel_corpus_lemmatization (fun _ => []) [] (fun _ => []) 4 [['a']] =
        none :=
  ⟨by decide, by decide,
    C9_short_list_fails _ _ _ 4 [['a']] (by decide) (by decide)⟩

theorem foldl_range_assign {α : Type} (f : Nat → α) (n : Nat)
    (init : Option α) :
    (List.range (n + 1)).foldl (fun _ t => some (f t)) init = some (f n) := by
  rw [List.range_succ, List.foldl_append]
  rfl

/-- C1: for every BoW corpus, trained model and topic argument,
`inspect_classification` returns the inspection list of the last topic
iterated (`model.num_topics - 1`), independent of the `topic` argument,
because the loop variable shadows and overwrites the parameter. -/
theorem C1_returns_last_topic_only (bow_corpus : List (List (Nat × Nat)))
    (model : LdaModel) (t1 t2 : Nat) (txt_paths : List (List Char))
    (h : 0 < model.num_topics) :
    inspect_classification bow_corpus model t1 txt_paths =
        inspect_classification bow_corpus model t2 txt_paths ∧
      inspect_classification bow_corpus model t1 txt_paths =
        some (inspection_for txt_paths bow_corpus model
          (model.num_topics - 1)) := by
  refine ⟨rfl, ?_⟩
  obtain ⟨m, hm⟩ : ∃ m, model.num_topics = m + 1 :=
    ⟨model.num_topics - 1, by omega⟩
  unfold inspect_classification
  rw [hm]
  rw [foldl_range_assign (inspection_for txt_paths bow_corpus model) m none]
  simp [hm]

theorem C1_returns_last_topic_only_witness :
    0 < (LdaModel.mk 2 fun _ => [(0, 1)]).num_topics ∧
      (inspect_classification [[(0, 1)]] (LdaModel.mk 2 fun _ => [(0, 1)]) 0
          [['a', '.', 't', 'x', 't']] =
        inspect_classification [[(0, 1)]] (LdaModel.mk 2 fun _ => [(0, 1)]) 7
          [['a', '.', 't', 'x', 't']] ∧
      inspect_classification [[(0, 1)]] (LdaModel.mk 2 fun _ => [(0, 1)]) 0
          [['a', '.', 't', 'x', 't']] =
        some (inspection_for [['a', '.', 't', 'x', 't']] [[(0, 1)]]
          (LdaModel.mk 2 fun _ => [(0, 1)])
          ((LdaModel.mk 2 fun _ => [(0, 1)]).num_topics - 1))) :=
  ⟨by decide,
    C1_returns_last_topic_only [[(0, 1)]] (LdaModel.mk 2 fun _ => [(0, 1)])
      0 7 [['a', '.', 't', 'x', 't']] (by decide)⟩

/-- C6: for every lemmatized corpus and thresholds, the BoW corpus returned
by `bow_and_dict` has the same length as the input corpus, its i-th vector
encodes the i-th input document, and every token id occurring in any vector
is an id of the returned dictionary. -/
theorem C6_bow_shape (corpus : List (List Char)) (no_below : Nat)
    (no_above : ℚ) :
    (bow_and_dict corpus no_below no_above).2.length = corpus.length ∧
      (∀ i, i < corpus.length →
        (bow_and_dict corpus no_below no_above).2.getD i [] =
          doc2bow (bow_and_dict corpus no_below no_above).1
            (words (corpus.getD i []))) ∧
      (∀ vec ∈ (bow_and_dict corpus no_below no_above).2, ∀ p ∈ vec,
        p.1 < (bow_and_dict corpus no_below no_above).1.length) := by
  unfold bow_and_dict
  refine ⟨by simp, fun i hi => ?_, fun vec hvec p hp => ?_⟩
  · simp only [List.getD_eq_getElem?_getD, List.getElem?_map]
    rw [List.getElem?_eq_getElem hi]
    simp
  · simp only [List.mem_map] at hvec
    obtain ⟨toks, _, rfl⟩ := hvec
    simp only [doc2bow, List.mem_filterMap, List.mem_range] at hp
    obtain ⟨i, hilt, hi⟩ := hp
    split at hi
    · exact absurd hi (by simp)
    · cases hi
      exact hilt

theorem C6_bow_shape_witness :
    (0 : Nat) < ([['a'], ['b']] : List (List Char)).length ∧
      (bow_and_dict [['a'], ['b']] 1 1).2.getD 0 [] =
        doc2bow (bow_and_dict [['a'], ['b']] 1 1).1
          (words (([['a'], ['b']] : List (List Char)).getD 0 [])) :=
  ⟨by decide, (C6_bow_shape [['a'], ['b']] 1 1).2.1 0 (by decide)⟩

/-- C2 evidence: `bow_and_dict` ignores the `no_above` argument it receives
— its result is the same for any two values — and on the two-document
corpus `["a b", "a c"]` with `no_below = 1`, `no_above = 1` the token `a`
(document frequency 2) survives the spec-described filtering
(`bow_and_dict_spec`) but is dropped by the code, which always applies the
library default `no_above = 0.5`. -/
theorem C2_no_above_ignored :
    (∀ (corpus : List (List Char)) (no_below : Nat) (a b : ℚ),
        bow_and_dict corpus no_below a = bow_and_dict corpus no_below b) ∧
      ['a'] ∈ (bow_and_dict_spec [['a', ' ', 'b'], ['a', ' ', 'c']] 1 1).1 ∧
      ['a'] ∉ (bow_and_dict [['a', ' ', 'b'], ['a', ' ', 'c']] 1 1).1 := by
  refine ⟨fun _ _ _ _ => rfl, ?_, ?_⟩ <;> decide

/-- Sanity of the `filter_extremes` bound: the integer division used in the
model is the floor of `no_above * num_docs`. -/
theorem num_mul_div_den_eq_floor (q : ℚ) (N : ℕ) :
    q.num * N / (q.den : ℤ) = ⌊(q * N : ℚ)⌋ := by
  have hq : (q * N : ℚ) = ((q.num * N : ℤ) : ℚ) / ((q.den : ℕ) : ℚ) := by
    conv_lhs => rw [← Rat.num_div_den q]
    push_cast
    rw [div_mul_eq_mul_div]
  rw [hq, Rat.floor_intCast_div_natCast]

theorem flatten_chunks_aux {α : Type} (n : Nat) (hn : 0 < n) :
    ∀ (k : Nat) (l : List α), (l.length + n - 1) / n = k →
      ((List.range k).map fun j => (l.drop (j * n)).take n).flatten = l := by
  intro k
  induction k with
  | zero =>
    intro l hl
    have hlen : l.length = 0 := by
      have := (Nat.div_eq_zero_iff hn).mp hl
      omega
    rw [List.length_eq_zero.mp hlen]
    simp
  | succ k ih =>
    intro l hl
    have hL1 : 1 ≤ l.length := by
      by_contra hc
      have h0 : l.length = 0 := by omega
      rw [h0, Nat.zero_add, Nat.div_eq_of_lt (by omega)] at hl
      exact Nat.succ_ne_zero k hl.symm
    rw [List.range_succ_eq_map k]
    simp only [List.map_cons, Nat.zero_mul, List.drop_zero, List.map_map,
      List.flatten_cons]
    have hmap : (List.range k).map (fun j => (l.drop (Nat.succ j * n)).take n) =
        (List.range k).map fun j => ((l.drop n).drop (j * n)).take n :=
      List.map_congr_left fun j _ => by
        rw [Nat.succ_mul, Nat.add_comm, ← List.drop_drop]
    have htail :
        ((List.range k).map fun j => ((l.drop n).drop (j * n)).take n).flatten =
          l.drop n := by
      apply ih
      rw [List.length_drop]
      rcases le_or_lt n l.length with hle | hlt
      · have h1 : l.length - n + n - 1 = l.length - 1 := by omega
        have h2 : l.length + n - 1 = l.length - 1 + n := by omega
        rw [h2, Nat.add_div_right _ hn] at hl
        rw [h1]
        omega
      · have h1 : l.length - n = 0 := by omega
        have h3 : (l.length + n - 1) / n < 2 := by
          rw [Nat.div_lt_iff_lt_mul hn]
          omega
        rw [h1, Nat.zero_add, Nat.div_eq_of_lt (by omega)]
        omega
    calc (l.take n ++
            ((List.range k).map fun j => (l.drop (Nat.succ j * n)).take n).flatten)
        = l.take n ++ l.drop n := by rw [hmap, htail]
      _ = l := List.take_append_drop n l

theorem chunks_flatten {α : Type} (n : Nat) (hn : 0 < n) (l : List α) :
    ((pyRangeStep l.length n).map fun i => (l.drop i).take n).flatten = l := by
  unfold pyRangeStep
  rw [List.map_map]
  exact flatten_chunks_aux n hn _ l rfl

theorem lemmatize_corpus_eq_map (nlp : List Char → List (List Char))
    (stop_words : List (List Char)) (fs : List Char → List Char)
    (paths : List (List Char)) :
    lemmatize_corpus nlp stop_words fs paths =
      paths.map fun p => lemmatize_string nlp stop_words (fs p) := by
  unfold lemmatize_corpus
  rw [List.map_map]
  rfl

/-- C4 (amended): whenever the chunk size `n = len(txt_paths)/cores` is
positive — in particular whenever `len(txt_paths) ≥ cores` — the parallel
variant returns exactly the sequential `lemmatize_corpus` of the whole
list, in the same document order: the chunks concatenate back to the
original path list.  (As literally stated over every path list the claim
fails: when `0 < len(txt_paths) < cores` the chunk size is `0` and the
function raises instead of returning, see `C4_short_list_cex`.) -/
theorem C4_parallel_matches_sequential (nlp : List Char → List (List Char))
    (stop_words : List (List Char)) (fs : List Char → List Char)
    (cores : Nat) (txt_paths : List (List Char))
    (h : 0 < txt_paths.length / cores) :
    parallel_corpus_lemmatization nlp stop_words fs cores txt_paths =
      some (lemmatize_corpus nlp stop_words fs txt_paths) := by
  have hne : ¬txt_paths.length / cores = 0 := by omega
  simp only [parallel_corpus_lemmatization]
  rw [if_neg hne]
  congr 1
  have hchunks : ((pyRangeStep txt_paths.length (txt_paths.length / cores)).map
        fun i => (txt_paths.drop i).take (txt_paths.length / cores)).map
          (lemmatize_corpus nlp stop_words fs) =
      ((pyRangeStep txt_paths.length (txt_paths.length / cores)).map
        fun i => (txt_paths.drop i).take (txt_paths.length / cores)).map
          (List.map fun p => lemmatize_string nlp stop_words (fs p)) :=
    List.map_congr_left fun ch _ => lemmatize_corpus_eq_map nlp stop_words fs ch
  rw [hchunks, ← List.map_flatten, chunks_flatten _ h,
    lemmatize_corpus_eq_map nlp stop_words fs txt_paths]

/-- C4 counterexample: on a 4-core machine (`mp.cpu_count() = 4`,
modelled by `cores = 4`) and a single-path list, the parallel variant
raises (`none`) while the sequential variant returns a one-document
corpus, so the two are not equal for every path list. -/
theorem C4_short_list_cex :
    parallel_corpus_lemmatization (fun _ => []) [] (fun _ => []) 4 [['a']] ≠
      some (lemmatize_corpus (fun _ => []) [] (fun _ => []) [['a']]) := by
  decide

theorem C4_parallel_matches_sequential_witness :
    0 < ([['a'], ['b']] : List (List Char)).length / 2 ∧
      parallel_corpus_lemmatization (fun _ => []) [] (fun _ => []) 2
          [['a'], ['b']] =
        some (lemmatize_corpus (fun _ => []) [] (fun _ => []) [['a'], ['b']]) :=
  ⟨by decide,
    C4_parallel_matches_sequential _ _ _ 2 [['a'], ['b']] (by decide)⟩

theorem mem_joinSp {c : Char} : ∀ {ws : List (List Char)}, c ∈ joinSp ws →
    c = ' ' ∨ ∃ w ∈ ws, c ∈ w := by
  intro ws
  induction ws with
  | nil => intro h; simp [joinSp] at h
  | cons w vs ih =>
    cases vs with
    | nil =>
      intro h
      right
      exact ⟨w, List.mem_cons_self w [], by simpa [joinSp] using h⟩
    | cons v vs' =>
      intro h
      simp only [joinSp, List.mem_append, List.mem_cons] at h
      rcases h with h | h | h
      · right; exact ⟨w, List.mem_cons_self w _, h⟩
      · left; exact h
      · rcases ih h with h1 | ⟨u, hu, hcu⟩
        · left; exact h1
        · right; exact ⟨u, List.mem_cons_of_mem w hu, hcu⟩

theorem words_joinSp : ∀ ws : List (List Char),
    (∀ w ∈ ws, ∀ c ∈ w, c ∉ pyWs) →
      words (joinSp ws) = ws.filter fun w => !w.isEmpty := by
  intro ws
  induction ws with
  | nil => intro _; simp [joinSp, words]
  | cons w vs ih =>
    cases vs with
    | nil =>
      intro h
      simp only [joinSp, words]
      rw [List.splitOnP_eq_single _ _
        fun x hx => by simpa using h w (List.mem_cons_self w []) x hx]
    | cons v vs' =>
      intro h
      have hrest := ih fun u hu c hc => h u (List.mem_cons_of_mem w hu) c hc
      simp only [joinSp, words] at hrest ⊢
      rw [List.splitOnP_first _ _
        (fun x hx => by simpa using h w (List.mem_cons_self w _) x hx)
        ' ' (by decide) _]
      rw [List.filter_cons, List.filter_cons]
      simp only [hrest]

/-- C3: for every raw document and stop-word set, the string returned by
`lemmatize_string` contains no punctuation characters, and none of its
whitespace-separated tokens is in the stop-word set — provided the external
spaCy lemmatizer returns lemmas that (after lowercasing) are free of
punctuation and whitespace characters, which is the only part of the
pipeline outside the script. -/
theorem C3_no_punct_no_stop_words (nlp : List Char → List (List Char))
    (stop_words : List (List Char)) (doc : List Char)
    (hlem : ∀ w ∈ lemTokens nlp doc, ∀ c ∈ w, c ∉ pyPunct ∧ c ∉ pyWs) :
    (∀ c ∈ lemmatize_string nlp stop_words doc, c ∉ pyPunct) ∧
      ∀ w ∈ words (lemmatize_string nlp stop_words doc), w ∉ stop_words := by
  have hkept : ∀ w ∈ (lemTokens nlp doc).filter fun w =>
      decide (w ∉ stop_words), w ∈ lemTokens nlp doc ∧ w ∉ stop_words := by
    intro w hw
    rw [List.mem_filter] at hw
    exact ⟨hw.1, by simpa using hw.2⟩
  constructor
  · intro c hc
    unfold lemmatize_string at hc
    rcases mem_joinSp hc with rfl | ⟨w, hw, hcw⟩
    · decide
    · exact (hlem w (hkept w hw).1 c hcw).1
  · unfold lemmatize_string
    rw [words_joinSp _ fun w hw c hc => (hlem w (hkept w hw).1 c hc).2]
    intro w hw
    rw [List.mem_filter] at hw
    exact (hkept w hw.1).2

theorem C3_no_punct_no_stop_words_witness :
    (∀ w ∈ lemTokens words ['A', 'b', ',', ' ', 't', 'h', 'e'], ∀ c ∈ w,
        c ∉ pyPunct ∧ c ∉ pyWs) ∧
      ∀ c ∈ lemmatize_string words [['t', 'h', 'e']]
          ['A', 'b', ',', ' ', 't', 'h', 'e'], c ∉ pyPunct :=
  ⟨by decide,
    (C3_no_punct_no_stop_words words [['t', 'h', 'e']]
      ['A', 'b', ',', ' ', 't', 'h', 'e'] (by decide)).1⟩

theorem indexOf_lt_length_mem (a : List Char) :
    ∀ l : List (List Char), a ∈ l → l.indexOf a < l.length := by
  intro l
  induction l with
  | nil => intro h; cases h
  | cons b bs ih =>
    intro h
    simp only [List.indexOf, List.findIdx_cons]
    cases hba : b == a with
    | true => simp
    | false =>
      have hmem : a ∈ bs := by
        rcases List.mem_cons.mp h with heq | hmem
        · subst heq; simp at hba
        · exact hmem
      have hlt := ih hmem
      simp only [List.indexOf] at hlt
      simpa using Nat.succ_lt_succ hlt

theorem getD_indexOf_mem (a : List Char) :
    ∀ l : List (List Char), a ∈ l → l.getD (l.indexOf a) [] = a := by
  intro l
  induction l with
  | nil => intro h; cases h
  | cons b bs ih =>
    intro h
    simp only [List.indexOf, List.findIdx_cons]
    cases hba : b == a with
    | true =>
      have hb : b = a := by simpa using hba
      simp [hb]
    | false =>
      have hmem : a ∈ bs := by
        rcases List.mem_cons.mp h with heq | hmem
        · subst heq; simp at hba
        · exact hmem
      have := ih hmem
      simp only [List.indexOf] at this
      simpa using this

theorem tryShow_ok (attempt : Except String Unit) :
    tryShow attempt = Except.ok () := by
  cases attempt <;> rfl

theorem displayImgs_ok (openShow : List Char → Except String Unit) :
    ∀ paths : List (List Char), displayImgs openShow paths = Except.ok () := by
  intro paths
  induction paths with
  | nil => rfl
  | cons p ps ih =>
    show ps.foldl _ (tryShow (openShow p)) = Except.ok ()
    rw [tryShow_ok]
    exact ih

/-- C8: whenever the query path occurs in the text-path list (and the
TF-IDF matrix has a row per path), `doc_sim` returns `None` no matter how
the display of any image fails: every exception of the display loop is
caught by the bare `except: pass` and discarded. -/
theorem C8_display_failures_swallowed
    (openShow : List Char → Except String Unit)
    (txt_paths : List (List Char)) (path : List Char)
    (tfidf_matrix : List (List ℝ))
    (h1 : path ∈ txt_paths)
    (h2 : tfidf_matrix.length = txt_paths.length) :
    doc_sim openShow txt_paths path tfidf_matrix = Except.ok () := by
  unfold doc_sim
  rw [if_pos h1, if_pos (by rw [h2]; exact indexOf_lt_length_mem path txt_paths h1)]
  exact displayImgs_ok openShow _

theorem C8_display_failures_swallowed_witness :
    ['a', '.', 't', 'x', 't'] ∈ ([['a', '.', 't', 'x', 't']] : List (List Char)) ∧
      ([[(1 : ℝ)]] : List (List ℝ)).length =
        ([['a', '.', 't', 'x', 't']] : List (List Char)).length ∧
      doc_sim (fun _ => Except.error "boom") [['a', '.', 't', 'x', 't']]
        ['a', '.', 't', 'x', 't'] [[(1 : ℝ)]] = Except.ok () :=
  ⟨by decide, rfl,
    C8_display_failures_swallowed (fun _ => Except.error "boom")
      [['a', '.', 't', 'x', 't']] ['a', '.', 't', 'x', 't'] [[(1 : ℝ)]]
      (by decide) rfl⟩

theorem head?_take_pos {α : Type} (n : Nat) (hn : 0 < n) (l : List α) :
    (l.take n).head? = l.head? := by
  cases l with
  | nil => simp
  | cons a l' =>
    obtain ⟨m, rfl⟩ : ∃ m, n = m + 1 := ⟨n - 1, by omega⟩
    simp

theorem argsortAsc_reverse_head (xs : List ℝ) (q : Nat) (hq : q < xs.length)
    (hmax : ∀ j, j < xs.length → j ≠ q → xs.getD j 0 < xs.getD q 0) :
    (argsortAsc xs).reverse.head? = some q := by
  unfold argsortAsc
  rw [← List.map_reverse]
  set s := xs.enum.insertionSort (fun a b : Nat × ℝ => a.2 ≤ b.2) with hsdef
  have hperm : List.Perm s xs.enum := List.perm_insertionSort _ _
  have hsorted : List.Sorted (fun a b : Nat × ℝ => a.2 ≤ b.2) s :=
    List.sorted_insertionSort _ _
  have hmem_enum : (q, xs.getD q 0) ∈ xs.enum := by
    rw [List.mk_mem_enum_iff_getElem?]
    simp [List.getD_eq_getElem?_getD, List.getElem?_eq_getElem hq]
  have hmem_s : (q, xs.getD q 0) ∈ s := hperm.mem_iff.mpr hmem_enum
  have hchar : ∀ p : Nat × ℝ, p ∈ s → p.1 < xs.length ∧ p.2 = xs.getD p.1 0 := by
    intro p hp
    have hpe : p ∈ xs.enum := hperm.subset hp
    obtain ⟨i, x⟩ := p
    rw [List.mk_mem_enum_iff_getElem?] at hpe
    have hi : i < xs.length := by
      by_contra hni
      rw [List.getElem?_eq_none (by omega)] at hpe
      cases hpe
    refine ⟨hi, ?_⟩
    rw [List.getElem?_eq_getElem hi] at hpe
    simpa [List.getD_eq_getElem?_getD, List.getElem?_eq_getElem hi] using
      (Option.some.inj hpe).symm
  have hne : s.reverse ≠ [] := by
    have hslen : s.length = xs.length := by
      rw [hperm.length_eq, List.enum_length]
    intro hc
    have h0 : s.reverse.length = 0 := by rw [hc]; rfl
    rw [List.length_reverse, hslen] at h0
    omega
  obtain ⟨p, rest, hrev⟩ := List.exists_cons_of_ne_nil hne
  have hsortedrev : List.Pairwise (fun a b : Nat × ℝ => b.2 ≤ a.2) s.reverse := by
    rw [List.pairwise_reverse]
    exact hsorted
  rw [hrev] at hsortedrev
  have hdom : ∀ x ∈ rest, x.2 ≤ p.2 := (List.pairwise_cons.mp hsortedrev).1
  have hp_mem_s : p ∈ s := by
    rw [← List.mem_reverse, hrev]
    exact List.mem_cons_self p rest
  obtain ⟨hp1, hp2⟩ := hchar p hp_mem_s
  have hqp : p.1 = q := by
    by_contra hne'
    have hlt := hmax p.1 hp1 hne'
    have hqv : (q, xs.getD q 0) ∈ s.reverse := List.mem_reverse.mpr hmem_s
    rw [hrev] at hqv
    rcases List.mem_cons.mp hqv with heq | hin
    · exact hne' (by rw [← heq])
    · have hle := hdom _ hin
      rw [hp2] at hle
      exact absurd hle (not_le.mpr hlt)
  rw [hrev]
  simp [hqp]

/-- C7 (amended): when the query's similarity with itself is strictly
greater than its similarity with every other row — in particular when no
other row ties with it — `doc_sim` selects the top five rows by descending
cosine similarity without excluding any row, and the query document itself
is the first of the five selected paths.  (As literally stated the claim
fails when other rows tie with the query at maximal similarity, e.g.
duplicate rows: see `C7_tie_cex`, where the query is not even among the
five selected paths.) -/
theorem C7_query_ranks_first (txt_paths : List (List Char))
    (path : List Char) (tfidf_matrix : List (List ℝ))
    (h1 : path ∈ txt_paths)
    (h2 : tfidf_matrix.length = txt_paths.length)
    (hmax : ∀ j, j < tfidf_matrix.length → j ≠ txt_paths.indexOf path →
      cosSim (tfidf_matrix.getD (txt_paths.indexOf path) [])
          (tfidf_matrix.getD j []) <
        cosSim (tfidf_matrix.getD (txt_paths.indexOf path) [])
          (tfidf_matrix.getD (txt_paths.indexOf path) [])) :
    (doc_sim_selected txt_paths path tfidf_matrix).head? =
        some (tifOf4 path) ∧
      tifOf4 path ∈ doc_sim_selected txt_paths path tfidf_matrix := by
  have hqlt : txt_paths.indexOf path < tfidf_matrix.length := by
    rw [h2]
    exact indexOf_lt_length_mem path txt_paths h1
  set q := txt_paths.indexOf path with hqdef
  set sim := tfidf_matrix.map fun row => cosSim (tfidf_matrix.getD q []) row
    with hsim
  have hsimlen : sim.length = tfidf_matrix.length := by
    rw [hsim, List.length_map]
  have hsimget : ∀ j, j < tfidf_matrix.length →
      sim.getD j 0 =
        cosSim (tfidf_matrix.getD q []) (tfidf_matrix.getD j []) := by
    intro j hj
    rw [hsim]
    simp [List.getD_eq_getElem?_getD, List.getElem?_map,
      List.getElem?_eq_getElem hj]
  have hhead : (argsortAsc sim).reverse.head? = some q := by
    apply argsortAsc_reverse_head sim q (by rw [hsimlen]; exact hqlt)
    intro j hj hne
    rw [hsimlen] at hj
    rw [hsimget j hj, hsimget q hqlt]
    exact hmax j hj hne
  have hheadsel : (doc_sim_selected txt_paths path tfidf_matrix).head? =
      some (tifOf4 path) := by
    simp only [doc_sim_selected]
    rw [← hqdef, ← hsim, List.head?_map, List.head?_map,
      head?_take_pos 5 (by omega), hhead]
    have hpath : txt_paths[q]?.getD [] = path := by
      rw [← List.getD_eq_getElem?_getD, hqdef]
      exact getD_indexOf_mem path txt_paths h1
    simp [hpath]
  refine ⟨hheadsel, ?_⟩
  cases hd : doc_sim_selected txt_paths path tfidf_matrix with
  | nil => rw [hd] at hheadsel; cases hheadsel
  | cons x rest =>
    rw [hd] at hheadsel
    have hx : x = tifOf4 path := by
      simpa using hheadsel
    rw [hx]
    exact List.mem_cons_self _ rest

theorem C7_query_ranks_first_witness :
    (['a', '.', 't', 'x', 't'] ∈
        ([['a', '.', 't', 'x', 't'], ['b', '.', 't', 'x', 't']] :
          List (List Char))) ∧
      ([[(1 : ℝ), 0], [0, 1]] : List (List ℝ)).length =
        ([['a', '.', 't', 'x', 't'], ['b', '.', 't', 'x', 't']] :
          List (List Char)).length ∧
      (doc_sim_selected [['a', '.', 't', 'x', 't'], ['b', '.', 't', 'x', 't']]
          ['a', '.', 't', 'x', 't'] [[(1 : ℝ), 0], [0, 1]]).head? =
        some (tifOf4 ['a', '.', 't', 'x', 't']) := by
  refine ⟨by decide, rfl, ?_⟩
  refine (C7_query_ranks_first _ _ _ (by decide) rfl ?_).1
  intro j hj hne
  have hidx : (([['a', '.', 't', 'x', 't'], ['b', '.', 't', 'x', 't']] :
      List (List Char)).indexOf ['a', '.', 't', 'x', 't']) = 0 := by decide
  rw [hidx] at hne
  rw [hidx]
  have hj2 : j < 2 := hj
  interval_cases j
  · exact absurd rfl hne
  · show cosSim [1, 0] [0, 1] < cosSim [1, 0] [1, 0]
    norm_num [cosSim, dotR, Real.sqrt_one]

theorem C7_tie_cex :
    tifOf4 ['a', '.', 't', 'x', 't'] ∉
      doc_sim_selected
        [['a', '.', 't', 'x', 't'], ['b', '.', 't', 'x', 't'],
         ['c', '.', 't', 'x', 't'], ['d', '.', 't', 'x', 't'],
         ['e', '.', 't', 'x', 't'], ['f', '.', 't', 'x', 't']]
        ['a', '.', 't', 'x', 't'] [[1], [1], [1], [1], [1], [1]] := by
  have hidx : (([['a', '.', 't', 'x', 't'], ['b', '.', 't', 'x', 't'],
      ['c', '.', 't', 'x', 't'], ['d', '.', 't', 'x', 't'],
      ['e', '.', 't', 'x', 't'], ['f', '.', 't', 'x', 't']] :
      List (List Char)).indexOf ['a', '.', 't', 'x', 't']) = 0 := by decide
  have hcos : cosSim [(1 : ℝ)] [1] = 1 := by
    norm_num [cosSim, dotR, Real.sqrt_one]
  have hsim : (([[(1 : ℝ)], [1], [1], [1], [1], [1]] : List (List ℝ)).map
      fun row => cosSim (([[(1 : ℝ)], [1], [1], [1], [1], [1]] :
        List (List ℝ)).getD 0 []) row) = [1, 1, 1, 1, 1, 1] := by
    show ([[(1 : ℝ)], [1], [1], [1], [1], [1]] : List (List ℝ)).map
      (fun row => cosSim [(1 : ℝ)] row) = [1, 1, 1, 1, 1, 1]
    simp [hcos]
  have harg : argsortAsc [1, 1, 1, 1, 1, 1] = [0, 1, 2, 3, 4, 5] := by
    simp [argsortAsc, List.enum, List.enumFrom]
  simp only [doc_sim_selected, hidx, hsim, harg]
  decide
